import Mathlib

/-
  Verification of the Ben-Israel / Schultz iterative matrix-inverse repository.

  Shallow embedding conventions:
  * Matrices are `Matrix (Fin m) (Fin n) ℚ`; real arithmetic is modelled exactly
    over the rationals (the numerical library primitives — multiply, transpose,
    norms, rank, determinant, identity — are modelled with their standard
    mathematical semantics, as the spec treats them as black boxes).
  * The scalar `sigma` of the source is an IEEE float obtained by dividing two
    nonnegative norms.  Its division-by-zero behaviour matters, so sigma is
    embedded as `SigVal`: a finite rational, `inf` (q/0 with q ≠ 0) or `nan`
    (0/0).  Comparisons with `nan` are false, mirroring IEEE semantics.
  * `frobenius_norm ** 2` in the source is `sqrt (sum of squares) ^ 2`, which is
    exactly the sum of squares; it is embedded directly as `frobSq`.
  * Python `while` loops become fuel-structured recursion, with
    `fuel = max_iterations - k`, so `k < max_iterations` is `fuel > 0`.
-/

/-- Embedded value of the float variable `sigma`: finite, +infinity (x/0 with
x > 0) or NaN (0/0). -/
inductive SigVal where
  | fin (q : ℚ)
  | inf
  | nan
deriving DecidableEq

/-- `numerator / denominator` on floats, for nonnegative operands: ordinary
division when the denominator is nonzero, otherwise `inf` or `nan` (IEEE). -/
def sigDiv (num den : ℚ) : SigVal :=
  if den = 0 then (if num = 0 then SigVal.nan else SigVal.inf) else SigVal.fin (num / den)

/-- `sigma >= tolerance` on floats (false for NaN). -/
def sigGe (s : SigVal) (t : ℚ) : Bool :=
  match s with
  | SigVal.fin q => decide (t ≤ q)
  | SigVal.inf => true
  | SigVal.nan => false

/-- `sigma <= tolerance` on floats (false for NaN and +inf). -/
def sigLe (s : SigVal) (t : ℚ) : Bool :=
  match s with
  | SigVal.fin q => decide (q ≤ t)
  | SigVal.inf => false
  | SigVal.nan => false

/-- `sigma < tolerance` on floats (false for NaN and +inf). -/
def sigLt (s : SigVal) (t : ℚ) : Bool :=
  match s with
  | SigVal.fin q => decide (q < t)
  | SigVal.inf => false
  | SigVal.nan => false

/-- Row-major list-of-lists view of a matrix, used by the rank and determinant
primitives. -/
def toL {m n : ℕ} (A : Matrix (Fin m) (Fin n) ℚ) : List (List ℚ) :=
  List.ofFn fun i => List.ofFn fun j => A i j

/-- Matrix equality is equivalent to equality of the row-major list views. -/
theorem toL_eq_iff {m n : ℕ} {A B : Matrix (Fin m) (Fin n) ℚ} :
    toL A = toL B ↔ A = B := by
  constructor
  · intro h
    ext i j
    have h1 := List.ofFn_inj.mp h
    have h2 := List.ofFn_inj.mp (congrFun h1 i)
    exact congrFun h2 j
  · intro h; rw [h]

/-- Equality of concrete matrices, decided through the list view (reduces well
under kernel evaluation). -/
instance (priority := 2000) matrixQDecEq {m n : ℕ} :
    DecidableEq (Matrix (Fin m) (Fin n) ℚ) :=
  fun A B => decidable_of_iff (toL A = toL B) toL_eq_iff

/-- Equality of (sigma, approximation) pairs, decided componentwise (reduces
well under kernel evaluation). -/
instance (priority := 2000) sigMatPairDecEq {m n : ℕ} :
    DecidableEq (SigVal × Matrix (Fin m) (Fin n) ℚ) :=
  fun p q => decidable_of_iff (p.1 = q.1 ∧ p.2 = q.2) Prod.ext_iff.symm

/-- Equality on `Option`, built from an equality decider on the contents
without any `Eq.rec` around the verdict (reduces well under kernel
evaluation). -/
def optionDecEqOf {α : Type} (d : DecidableEq α) : DecidableEq (Option α) := fun a b =>
  match a, b with
  | none, none => isTrue rfl
  | some x, some y => @decidable_of_iff (some x = some y) (x = y) Option.some_inj.symm (d x y)
  | none, some _ => isFalse fun h => Option.noConfusion h
  | some _, none => isFalse fun h => Option.noConfusion h

instance (priority := 2000) optMatDecEq {m n : ℕ} :
    DecidableEq (Option (Matrix (Fin m) (Fin n) ℚ)) :=
  optionDecEqOf matrixQDecEq

instance (priority := 2000) optSigMatDecEq {m n : ℕ} :
    DecidableEq (Option (SigVal × Matrix (Fin m) (Fin n) ℚ)) :=
  optionDecEqOf sigMatPairDecEq

/-- First row whose leading entry is nonzero (pivot search). -/
def pivotRow (rows : List (List ℚ)) : Option (List ℚ) :=
  rows.find? fun r => decide (r.headD 0 ≠ 0)

/-- Eliminate the leading entry of row `r` using pivot row `p`, dropping the
leading column. -/
def elimStep (p r : List ℚ) : List ℚ :=
  List.zipWith (fun x y => x - (r.headD 0 / p.headD 0) * y) r.tail p.tail

/-- Gaussian-elimination rank, recursing over (at most) `c` columns:
`LA.matrix_rank` with standard exact semantics. -/
def elimRankAux : ℕ → List (List ℚ) → ℕ
  | 0, _ => 0
  | c + 1, rows =>
    match pivotRow rows with
    | none => elimRankAux c (rows.map List.tail)
    | some p => 1 + elimRankAux c ((rows.erase p).map (elimStep p))

/-- Rank of a row-major matrix. -/
def elimRank (rows : List (List ℚ)) : ℕ :=
  elimRankAux (rows.headD []).length rows

/-- Laplace cofactor expansion along the first row, with fuel equal to the
number of rows: `LA.det` with standard exact semantics. -/
def detAux : ℕ → List (List ℚ) → ℚ
  | 0, _ => 1
  | c + 1, rows =>
    match rows with
    | [] => 0
    | r :: rs =>
      ((List.range r.length).map fun j =>
        (-1 : ℚ) ^ j * r.getD j 0 * detAux c (rs.map fun row => row.eraseIdx j)).sum

/-- Determinant of a row-major square matrix. -/
def detL (rows : List (List ℚ)) : ℚ :=
  detAux rows.length rows

/-- `LA.norm(A, ord=fro) ** 2`: the squared Frobenius norm is exactly the sum
of squared entries. -/
def frobSq {m n : ℕ} (A : Matrix (Fin m) (Fin n) ℚ) : ℚ :=
  ∑ i, ∑ j, (A i j) ^ 2

/-- Sum of absolute values of row `i`. -/
def absRowSum {m n : ℕ} (A : Matrix (Fin m) (Fin n) ℚ) (i : Fin m) : ℚ :=
  ∑ j, |A i j|

/-- `LA.norm(A, np.inf)`: maximum absolute row sum. -/
def infNorm {m n : ℕ} (A : Matrix (Fin m) (Fin n) ℚ) : ℚ :=
  Finset.univ.fold max 0 (absRowSum A)

/-- `2 * np.eye k`: the doubled identity `unit`. -/
def twoEye (k : ℕ) : Matrix (Fin k) (Fin k) ℚ :=
  (2 : ℚ) • (1 : Matrix (Fin k) (Fin k) ℚ)

/-- `alpha = 1.8 / frobenius_norm ** 2`. -/
def alphaOf {m n : ℕ} (A : Matrix (Fin m) (Fin n) ℚ) : ℚ :=
  (1.8 : ℚ) / frobSq A

/-- `approx = alpha * original.transpose()`: the initial approximation X₀. -/
def initApprox {m n : ℕ} (A : Matrix (Fin m) (Fin n) ℚ) : Matrix (Fin n) (Fin m) ℚ :=
  alphaOf A • A.transpose

/-- `LA.matrix_rank(original) == m_or_n`: the full-rank test performed inside
the loop of `gen_inv` (constant across iterations, as `original` is never
mutated). -/
def fullRankChk {m n : ℕ} (A : Matrix (Fin m) (Fin n) ℚ) : Bool :=
  decide (elimRank (toL A) = min m n)

/-- Full-column-rank update of `gen_inv`: `X ↦ (2I − X·A)·X`, `I` the n×n
identity (`m_or_n = n` in this branch, where m > n). -/
def benIsraelColUpdate {m n : ℕ} (A : Matrix (Fin m) (Fin n) ℚ)
    (X : Matrix (Fin n) (Fin m) ℚ) : Matrix (Fin n) (Fin m) ℚ :=
  (twoEye n - X * A) * X

/-- Full-row-rank update of `gen_inv`: `X ↦ X·(2I − A·X)`, `I` the m×m
identity (`m_or_n = m` in this branch, where m ≤ n). -/
def benIsraelRowUpdate {m n : ℕ} (A : Matrix (Fin m) (Fin n) ℚ)
    (X : Matrix (Fin n) (Fin m) ℚ) : Matrix (Fin n) (Fin m) ℚ :=
  X * (twoEye m - A * X)

/-- Schultz update of `shultz_inv`: `X ↦ X·(2I − A·X)`, `I` the n×n identity. -/
def shultzUpdate {n : ℕ} (A : Matrix (Fin n) (Fin n) ℚ)
    (X : Matrix (Fin n) (Fin n) ℚ) : Matrix (Fin n) (Fin n) ℚ :=
  X * (twoEye n - A * X)

/-- The `while` loop of `gen_inv`, column branch (`row_or_column = 1`, i.e.
m > n).  Returns `none` for the early `return None` on the failed rank check,
and `some (sigma, approx)` when the loop exits by its condition.  `fuel` is
`max_iterations - k`. -/
def genLoopCol {m n : ℕ} (A : Matrix (Fin m) (Fin n) ℚ) (tol : ℚ) :
    ℕ → SigVal → Matrix (Fin n) (Fin m) ℚ → Option (SigVal × Matrix (Fin n) (Fin m) ℚ)
  | 0, σ, X => some (σ, X)
  | fuel + 1, σ, X =>
    if sigGe σ tol then
      if fullRankChk A then
        genLoopCol A tol fuel
          (sigDiv (infNorm (benIsraelColUpdate A X - X)) (infNorm X))
          (benIsraelColUpdate A X)
      else none
    else some (σ, X)

/-- The `while` loop of `gen_inv`, row branch (`row_or_column = 0`, i.e.
m ≤ n). -/
def genLoopRow {m n : ℕ} (A : Matrix (Fin m) (Fin n) ℚ) (tol : ℚ) :
    ℕ → SigVal → Matrix (Fin n) (Fin m) ℚ → Option (SigVal × Matrix (Fin n) (Fin m) ℚ)
  | 0, σ, X => some (σ, X)
  | fuel + 1, σ, X =>
    if sigGe σ tol then
      if fullRankChk A then
        genLoopRow A tol fuel
          (sigDiv (infNorm (benIsraelRowUpdate A X - X)) (infNorm X))
          (benIsraelRowUpdate A X)
      else none
    else some (σ, X)

/-- The loop of `gen_inv` with the loop-invariant branch flag
`row_or_column = dimension.index(min(m, n))` lifted out: 1 (column branch)
exactly when m > n. -/
def genLoopTop {m n : ℕ} (A : Matrix (Fin m) (Fin n) ℚ) (tol : ℚ) (fuel : ℕ)
    (σ : SigVal) (X : Matrix (Fin n) (Fin m) ℚ) :
    Option (SigVal × Matrix (Fin n) (Fin m) ℚ) :=
  if n < m then genLoopCol A tol fuel σ X else genLoopRow A tol fuel σ X

/-- The epilogue of `gen_inv`: `if sigma <= tolerance: return approx` else
`return None`; an early in-loop `return None` (modelled as `none`) passes
through. -/
def genFinish {α : Type} (tol : ℚ) : Option (SigVal × α) → Option α
  | none => none
  | some (σ, X) => if sigLe σ tol then some X else none

/-- `gen_inv(original, tolerance, max_iterations)`: sigma starts at 1, the
approximation at `alpha • Aᵀ`. -/
def gen_inv {m n : ℕ} (A : Matrix (Fin m) (Fin n) ℚ) (tol : ℚ) (maxIter : ℕ) :
    Option (Matrix (Fin n) (Fin m) ℚ) :=
  genFinish tol (genLoopTop A tol maxIter (SigVal.fin 1) (initApprox A))

/-- The `while` loop of `shultz_inv` (no in-loop early return). -/
def shLoop {n : ℕ} (A : Matrix (Fin n) (Fin n) ℚ) (tol : ℚ) :
    ℕ → SigVal → Matrix (Fin n) (Fin n) ℚ → SigVal × Matrix (Fin n) (Fin n) ℚ
  | 0, σ, X => (σ, X)
  | fuel + 1, σ, X =>
    if sigGe σ tol then
      shLoop A tol fuel
        (sigDiv (infNorm (shultzUpdate A X - X)) (infNorm X))
        (shultzUpdate A X)
    else (σ, X)

/-- The epilogue of `shultz_inv`: `if sigma < tolerance: return approx` else
`return None` (strict comparison, unlike `gen_inv`). -/
def shFinish {α : Type} (tol : ℚ) (p : SigVal × α) : Option α :=
  if sigLt p.1 tol then some p.2 else none

/-- `shultz_inv` on a square matrix: the `det == 0` singularity check, then
the iteration from `alpha • Aᵀ` with sigma starting at 1. -/
def shultz_inv_sq {n : ℕ} (A : Matrix (Fin n) (Fin n) ℚ) (tol : ℚ) (maxIter : ℕ) :
    Option (Matrix (Fin n) (Fin n) ℚ) :=
  if detL (toL A) = 0 then none
  else shFinish tol (shLoop A tol maxIter (SigVal.fin 1) (initApprox A))

/-- Shape-cast helper for the square case of `shultz_inv`. -/
def shultzDispatch : {m n : ℕ} → m = n → Matrix (Fin m) (Fin n) ℚ → ℚ → ℕ →
    Option (Matrix (Fin n) (Fin m) ℚ)
  | _, _, rfl, A, tol, maxIter => shultz_inv_sq A tol maxIter

/-- `shultz_inv(original, tolerance, max_iterations)`: on a non-square input
`LA.det` raises `LinAlgError`, which the source catches and turns into
`return None`. -/
def shultz_inv {m n : ℕ} (A : Matrix (Fin m) (Fin n) ℚ) (tol : ℚ) (maxIter : ℕ) :
    Option (Matrix (Fin n) (Fin m) ℚ) :=
  if h : m = n then shultzDispatch h A tol maxIter else none

/-- Concrete matrix builder backed by lists (reduces well under kernel
evaluation); entries outside the given rows default to 0. -/
def ofLists (m n : ℕ) (rows : List (List ℚ)) : Matrix (Fin m) (Fin n) ℚ :=
  fun i j => (rows.getD i.1 []).getD j.1 0

/-- 1×1 matrix [[1]]. -/
def M1 : Matrix (Fin 1) (Fin 1) ℚ := ofLists 1 1 [[1]]

/-- 2×2 rank-deficient (and singular) matrix [[1,1],[1,1]]. -/
def Mrd : Matrix (Fin 2) (Fin 2) ℚ := ofLists 2 2 [[1, 1], [1, 1]]

/-- 2×1 full column-rank matrix [[1],[0]]. -/
def Acol : Matrix (Fin 2) (Fin 1) ℚ := ofLists 2 1 [[1], [0]]

/-- 1×2 full row-rank matrix [[1,0]]. -/
def Arow : Matrix (Fin 1) (Fin 2) ℚ := ofLists 1 2 [[1, 0]]

/-- 1×2 sample approximation. -/
def X12 : Matrix (Fin 1) (Fin 2) ℚ := ofLists 1 2 [[1, 1]]

/-- 2×1 sample approximation. -/
def X21 : Matrix (Fin 2) (Fin 1) ℚ := ofLists 2 1 [[1], [1]]

/-! ### Helper lemmas -/

section MainTheorems

attribute [local semireducible] Rat.add Rat.mul Rat.inv Rat.sub Rat.ofScientific

theorem genLoopCol_succ {m n : ℕ} (A : Matrix (Fin m) (Fin n) ℚ) (tol : ℚ) (fuel : ℕ)
    (σ : SigVal) (X : Matrix (Fin n) (Fin m) ℚ) :
    genLoopCol A tol (fuel + 1) σ X =
      if sigGe σ tol then
        if fullRankChk A then
          genLoopCol A tol fuel
            (sigDiv (infNorm (benIsraelColUpdate A X - X)) (infNorm X))
            (benIsraelColUpdate A X)
        else none
      else some (σ, X) := rfl

theorem genLoopRow_succ {m n : ℕ} (A : Matrix (Fin m) (Fin n) ℚ) (tol : ℚ) (fuel : ℕ)
    (σ : SigVal) (X : Matrix (Fin n) (Fin m) ℚ) :
    genLoopRow A tol (fuel + 1) σ X =
      if sigGe σ tol then
        if fullRankChk A then
          genLoopRow A tol fuel
            (sigDiv (infNorm (benIsraelRowUpdate A X - X)) (infNorm X))
            (benIsraelRowUpdate A X)
        else none
      else some (σ, X) := rfl

theorem shLoop_succ {n : ℕ} (A : Matrix (Fin n) (Fin n) ℚ) (tol : ℚ) (fuel : ℕ)
    (σ : SigVal) (X : Matrix (Fin n) (Fin n) ℚ) :
    shLoop A tol (fuel + 1) σ X =
      if sigGe σ tol then
        shLoop A tol fuel
          (sigDiv (infNorm (shultzUpdate A X - X)) (infNorm X))
          (shultzUpdate A X)
      else (σ, X) := rfl

theorem genLoopCol_stop {m n : ℕ} (A : Matrix (Fin m) (Fin n) ℚ) (tol : ℚ) (fuel : ℕ)
    (σ : SigVal) (X : Matrix (Fin n) (Fin m) ℚ) (h : sigGe σ tol = false) :
    genLoopCol A tol fuel σ X = some (σ, X) := by
  cases fuel with
  | zero => rfl
  | succ f => rw [genLoopCol_succ]; simp [h]

theorem genLoopRow_stop {m n : ℕ} (A : Matrix (Fin m) (Fin n) ℚ) (tol : ℚ) (fuel : ℕ)
    (σ : SigVal) (X : Matrix (Fin n) (Fin m) ℚ) (h : sigGe σ tol = false) :
    genLoopRow A tol fuel σ X = some (σ, X) := by
  cases fuel with
  | zero => rfl
  | succ f => rw [genLoopRow_succ]; simp [h]

theorem shLoop_stop {n : ℕ} (A : Matrix (Fin n) (Fin n) ℚ) (tol : ℚ) (fuel : ℕ)
    (σ : SigVal) (X : Matrix (Fin n) (Fin n) ℚ) (h : sigGe σ tol = false) :
    shLoop A tol fuel σ X = (σ, X) := by
  cases fuel with
  | zero => rfl
  | succ f => rw [shLoop_succ]; simp [h]

theorem sigLt_eq_false_of_sigGe {σ : SigVal} {t : ℚ} (h : sigGe σ t = true) :
    sigLt σ t = false := by
  cases σ with
  | fin q =>
    simp only [sigGe, decide_eq_true_eq] at h
    simp [sigLt, not_lt.mpr h]
  | inf => rfl
  | nan => simp [sigGe] at h

theorem infNorm_zero {m n : ℕ} : infNorm (0 : Matrix (Fin m) (Fin n) ℚ) = 0 := by
  refine le_antisymm ((Finset.fold_max_le 0).mpr ⟨le_rfl, fun i _ => ?_⟩)
    ((Finset.le_fold_max 0).mpr (Or.inl le_rfl))
  simp [absRowSum]

theorem eq_zero_of_infNorm_eq_zero {m n : ℕ} {X : Matrix (Fin m) (Fin n) ℚ}
    (h : infNorm X = 0) : X = 0 := by
  ext i j
  have h1 : absRowSum X i ≤ 0 :=
    ((Finset.fold_max_le 0).mp (le_of_eq h)).2 i (Finset.mem_univ i)
  have h2 : 0 ≤ absRowSum X i := Finset.sum_nonneg fun j _ => abs_nonneg _
  have h3 := (Finset.sum_eq_zero_iff_of_nonneg fun j _ => abs_nonneg (X i j)).mp
    (le_antisymm h1 h2) j (Finset.mem_univ j)
  simpa using h3

theorem benIsraelColUpdate_zero {m n : ℕ} (A : Matrix (Fin m) (Fin n) ℚ) :
    benIsraelColUpdate A 0 = 0 := by
  simp [benIsraelColUpdate]

theorem benIsraelRowUpdate_zero {m n : ℕ} (A : Matrix (Fin m) (Fin n) ℚ) :
    benIsraelRowUpdate A 0 = 0 := by
  simp [benIsraelRowUpdate]

theorem shultzUpdate_zero {n : ℕ} (A : Matrix (Fin n) (Fin n) ℚ) :
    shultzUpdate A 0 = 0 := by
  simp [shultzUpdate]

theorem shultz_inv_square {n : ℕ} (A : Matrix (Fin n) (Fin n) ℚ) (tol : ℚ) (maxIter : ℕ) :
    shultz_inv A tol maxIter = shultz_inv_sq A tol maxIter := by
  show (if h : n = n then shultzDispatch h A tol maxIter else none) = _
  rw [dif_pos rfl]
  exact rfl

/-- C1: In `gen_inv`, an iteration taken on a full column-rank input
(m > n, rank = n) replaces the approximation X by `(2I − X·A)·X` with I the
n×n identity, and an iteration taken on a full row-rank input (m < n,
rank = m) replaces X by `X·(2I − A·X)` with I the m×m identity. -/
theorem c1_gen_inv_branch_update_rules {m n : ℕ} (A : Matrix (Fin m) (Fin n) ℚ)
    (tol : ℚ) (fuel : ℕ) (σ : SigVal) (X : Matrix (Fin n) (Fin m) ℚ)
    (hσ : sigGe σ tol = true) :
    (n < m → elimRank (toL A) = n →
      genLoopTop A tol (fuel + 1) σ X =
        genLoopTop A tol fuel
          (sigDiv (infNorm (benIsraelColUpdate A X - X)) (infNorm X))
          (benIsraelColUpdate A X)) ∧
    (m < n → elimRank (toL A) = m →
      genLoopTop A tol (fuel + 1) σ X =
        genLoopTop A tol fuel
          (sigDiv (infNorm (benIsraelRowUpdate A X - X)) (infNorm X))
          (benIsraelRowUpdate A X)) := by
  constructor
  · intro hmn hr
    have hfr : fullRankChk A = true := by
      simp [fullRankChk, hr, min_eq_right (le_of_lt hmn)]
    unfold genLoopTop
    rw [if_pos hmn, if_pos hmn, genLoopCol_succ, if_pos hσ, if_pos hfr]
  · intro hnm hr
    have hfr : fullRankChk A = true := by
      simp [fullRankChk, hr, min_eq_left (le_of_lt hnm)]
    unfold genLoopTop
    rw [if_neg (lt_asymm hnm), if_neg (lt_asymm hnm), genLoopRow_succ, if_pos hσ, if_pos hfr]

theorem c1_witness :
    (1 : ℕ) < 2 ∧ elimRank (toL Acol) = 1 ∧ elimRank (toL Arow) = 1 ∧
    sigGe (SigVal.fin 1) (1/2) = true ∧
    genLoopTop Acol (1/2) 1 (SigVal.fin 1) X12 =
      genLoopTop Acol (1/2) 0
        (sigDiv (infNorm (benIsraelColUpdate Acol X12 - X12)) (infNorm X12))
        (benIsraelColUpdate Acol X12) ∧
    genLoopTop Arow (1/2) 1 (SigVal.fin 1) X21 =
      genLoopTop Arow (1/2) 0
        (sigDiv (infNorm (benIsraelRowUpdate Arow X21 - X21)) (infNorm X21))
        (benIsraelRowUpdate Arow X21) :=
  ⟨by decide, by decide, by decide, by decide,
   (c1_gen_inv_branch_update_rules Acol (1/2) 0 (SigVal.fin 1) X12 (by decide)).1
     (by decide) (by decide),
   (c1_gen_inv_branch_update_rules Arow (1/2) 0 (SigVal.fin 1) X21 (by decide)).2
     (by decide) (by decide)⟩

/-- C2: on a rank-deficient input (rank < min(m,n)), `gen_inv` with the
default tolerance 1e-7 and default max_iterations 1000 returns None; the loop
body's rank check fails on its first evaluation, so no update of the
approximation is ever applied (the loop returns None as soon as it is
entered, in either branch). -/
theorem c2_gen_inv_rank_deficient {m n : ℕ} (A : Matrix (Fin m) (Fin n) ℚ)
    (h : elimRank (toL A) < min m n) :
    gen_inv A (1/10000000) 1000 = none ∧
    (∀ (tol : ℚ) (fuel : ℕ) (σ : SigVal) (X : Matrix (Fin n) (Fin m) ℚ),
      sigGe σ tol = true → genLoopCol A tol (fuel + 1) σ X = none) ∧
    (∀ (tol : ℚ) (fuel : ℕ) (σ : SigVal) (X : Matrix (Fin n) (Fin m) ℚ),
      sigGe σ tol = true → genLoopRow A tol (fuel + 1) σ X = none) := by
  have hfr : fullRankChk A = false := by
    unfold fullRankChk
    exact decide_eq_false (Nat.ne_of_lt h)
  have hge : sigGe (SigVal.fin 1) (1/10000000) = true := by decide
  refine ⟨?_, ?_, ?_⟩
  · show genFinish _ (genLoopTop A _ 1000 (SigVal.fin 1) (initApprox A)) = none
    have h1000 : (1000 : ℕ) = 999 + 1 := rfl
    unfold genLoopTop
    by_cases hnm : n < m
    · rw [if_pos hnm, h1000, genLoopCol_succ, if_pos hge]
      simp [hfr, genFinish]
    · rw [if_neg hnm, h1000, genLoopRow_succ, if_pos hge]
      simp [hfr, genFinish]
  · intro tol fuel σ X hσ
    rw [genLoopCol_succ, if_pos hσ]
    simp [hfr]
  · intro tol fuel σ X hσ
    rw [genLoopRow_succ, if_pos hσ]
    simp [hfr]

theorem c2_witness :
    elimRank (toL Mrd) < min 2 2 ∧ gen_inv Mrd (1/10000000) 1000 = none :=
  ⟨by decide, (c2_gen_inv_rank_deficient Mrd (by decide)).1⟩

theorem sigLe_fin_self (t : ℚ) : sigLe (SigVal.fin t) t = true := by
  simp [sigLe]

/-- C3 (amended): when the loop exits because the iteration counter reached
max_iterations while sigma ≥ tolerance, `shultz_inv` always returns None
(its final check `sigma < tolerance` is strict, so the boundary
sigma = tolerance also fails); `gen_inv` returns None only when
sigma > tolerance strictly — its final check is `sigma <= tolerance`, so in
the boundary case sigma = tolerance exactly it returns the current
approximation as a success. -/
theorem c3_maxiter_exit {m n p : ℕ} (A : Matrix (Fin m) (Fin n) ℚ)
    (B : Matrix (Fin p) (Fin p) ℚ) (tol : ℚ) (maxIter : ℕ)
    (σg : SigVal) (Xg : Matrix (Fin n) (Fin m) ℚ)
    (σs : SigVal) (Xs : Matrix (Fin p) (Fin p) ℚ) :
    (shLoop B tol maxIter (SigVal.fin 1) (initApprox B) = (σs, Xs) →
      sigGe σs tol = true → shultz_inv_sq B tol maxIter = none) ∧
    (genLoopTop A tol maxIter (SigVal.fin 1) (initApprox A) = some (σg, Xg) →
      sigGe σg tol = true →
      (sigLe σg tol = false → gen_inv A tol maxIter = none) ∧
      (σg = SigVal.fin tol → gen_inv A tol maxIter = some Xg)) := by
  constructor
  · intro hs hge
    unfold shultz_inv_sq
    by_cases hd : detL (toL B) = 0
    · rw [if_pos hd]
    · rw [if_neg hd, hs]
      simp [shFinish, sigLt_eq_false_of_sigGe hge]
  · intro hl hge
    constructor
    · intro hle
      show genFinish _ (genLoopTop A _ maxIter (SigVal.fin 1) (initApprox A)) = none
      rw [hl]
      simp [genFinish, hle]
    · intro hσ
      show genFinish _ (genLoopTop A _ maxIter (SigVal.fin 1) (initApprox A)) = some Xg
      rw [hl, hσ]
      simp [genFinish, sigLe_fin_self]

/-- C3 counterexample: on the 1×1 matrix [[1]] with tolerance 4/5 and
max_iterations 1, the loop of `gen_inv` performs one iteration, producing
sigma = 4/5 exactly, and exits only because the iteration counter reached
max_iterations (sigma ≥ tolerance still holds); yet `gen_inv` returns the
approximation [[9/25]] as a success, not a failure. -/
theorem c3_counterexample :
    genLoopTop M1 (4/5) 1 (SigVal.fin 1) (initApprox M1) =
      some (SigVal.fin (4/5), ofLists 1 1 [[9/25]]) ∧
    sigGe (SigVal.fin (4/5)) (4/5) = true ∧
    gen_inv M1 (4/5) 1 = some (ofLists 1 1 [[9/25]]) :=
  ⟨by decide, by decide, by decide⟩

theorem c3_witness :
    shLoop M1 (4/5) 1 (SigVal.fin 1) (initApprox M1) =
      (SigVal.fin (4/5), ofLists 1 1 [[9/25]]) ∧
    sigGe (SigVal.fin (4/5)) (4/5) = true ∧
    shultz_inv_sq M1 (4/5) 1 = none ∧
    genLoopTop M1 (1/2) 1 (SigVal.fin 1) (initApprox M1) =
      some (SigVal.fin (4/5), ofLists 1 1 [[9/25]]) ∧
    sigLe (SigVal.fin (4/5)) (1/2) = false ∧
    gen_inv M1 (1/2) 1 = none :=
  ⟨by decide, by decide,
   (c3_maxiter_exit M1 M1 (4/5) 1 (SigVal.fin (4/5)) (ofLists 1 1 [[9/25]])
      (SigVal.fin (4/5)) (ofLists 1 1 [[9/25]])).1 (by decide) (by decide),
   by decide, by decide,
   ((c3_maxiter_exit M1 M1 (1/2) 1 (SigVal.fin (4/5)) (ofLists 1 1 [[9/25]])
      (SigVal.fin (4/5)) (ofLists 1 1 [[9/25]])).2 (by decide) (by decide)).1 (by decide)⟩

/-- C4: if an iteration starts from an approximation X with infinity norm 0
(the denominator of the sigma computation is zero), then X is the zero
matrix, the update maps it to the zero matrix again, sigma becomes NaN (the
0/0 division), every subsequent comparison with NaN is false, and both
algorithms return None — a non-convergence failure — rather than an
arithmetic fault. -/
theorem c4_zero_denominator {m n p : ℕ} (A : Matrix (Fin m) (Fin n) ℚ)
    (B : Matrix (Fin p) (Fin p) ℚ) (tol : ℚ) (fuel : ℕ) (σ : SigVal)
    (X : Matrix (Fin n) (Fin m) ℚ) (Y : Matrix (Fin p) (Fin p) ℚ)
    (hX : infNorm X = 0) (hY : infNorm Y = 0) (hσ : sigGe σ tol = true) :
    genFinish tol (genLoopCol A tol (fuel + 1) σ X) = none ∧
    genFinish tol (genLoopRow A tol (fuel + 1) σ X) = none ∧
    shFinish tol (shLoop B tol (fuel + 1) σ Y) = none := by
  obtain rfl : X = 0 := eq_zero_of_infNorm_eq_zero hX
  obtain rfl : Y = 0 := eq_zero_of_infNorm_eq_zero hY
  have hnan : sigDiv (infNorm ((0 : Matrix (Fin n) (Fin m) ℚ) - 0)) (infNorm (0 : Matrix (Fin n) (Fin m) ℚ)) = SigVal.nan := by
    rw [sub_zero, infNorm_zero]
    simp [sigDiv]
  have hnan2 : sigDiv (infNorm ((0 : Matrix (Fin p) (Fin p) ℚ) - 0)) (infNorm (0 : Matrix (Fin p) (Fin p) ℚ)) = SigVal.nan := by
    rw [sub_zero, infNorm_zero]
    simp [sigDiv]
  refine ⟨?_, ?_, ?_⟩
  · rw [genLoopCol_succ, if_pos hσ]
    by_cases hfr : fullRankChk A = true
    · rw [if_pos hfr, benIsraelColUpdate_zero, hnan,
        genLoopCol_stop A tol fuel SigVal.nan 0 rfl]
      simp [genFinish, sigLe]
    · simp [hfr, genFinish]
  · rw [genLoopRow_succ, if_pos hσ]
    by_cases hfr : fullRankChk A = true
    · rw [if_pos hfr, benIsraelRowUpdate_zero, hnan,
        genLoopRow_stop A tol fuel SigVal.nan 0 rfl]
      simp [genFinish, sigLe]
    · simp [hfr, genFinish]
  · rw [shLoop_succ, if_pos hσ, shultzUpdate_zero, hnan2,
      shLoop_stop B tol fuel SigVal.nan 0 rfl]
    simp [shFinish, sigLt]

theorem c4_witness :
    infNorm (0 : Matrix (Fin 1) (Fin 2) ℚ) = 0 ∧
    infNorm (0 : Matrix (Fin 1) (Fin 1) ℚ) = 0 ∧
    sigGe (SigVal.fin 1) (1/2) = true ∧
    genFinish (1/2) (genLoopCol Acol (1/2) 3 (SigVal.fin 1) 0) = none ∧
    genFinish (1/2) (genLoopRow Acol (1/2) 3 (SigVal.fin 1) 0) = none ∧
    shFinish (1/2) (shLoop M1 (1/2) 3 (SigVal.fin 1) 0) = none :=
  ⟨by decide, by decide, by decide,
   (c4_zero_denominator Acol M1 (1/2) 2 (SigVal.fin 1) 0 0
      (by decide) (by decide) (by decide)).1,
   (c4_zero_denominator Acol M1 (1/2) 2 (SigVal.fin 1) 0 0
      (by decide) (by decide) (by decide)).2.1,
   (c4_zero_denominator Acol M1 (1/2) 2 (SigVal.fin 1) 0 0
      (by decide) (by decide) (by decide)).2.2⟩

/-- C5: with max_iterations = 0 and the default tolerance 1e-7, both
`gen_inv` and `shultz_inv` return None immediately on every input: the loop
runs zero times, returning the initial state (sigma = 1, X = alpha·Aᵗ)
unchanged, and the final convergence checks fail since 1 is not below the
tolerance. -/
theorem c5_maxiter_zero {m n p q r : ℕ} (A : Matrix (Fin m) (Fin n) ℚ)
    (B : Matrix (Fin p) (Fin q) ℚ) (C : Matrix (Fin r) (Fin r) ℚ) :
    gen_inv A (1/10000000) 0 = none ∧
    genLoopTop A (1/10000000) 0 (SigVal.fin 1) (initApprox A) =
      some (SigVal.fin 1, initApprox A) ∧
    shultz_inv B (1/10000000) 0 = none ∧
    shLoop C (1/10000000) 0 (SigVal.fin 1) (initApprox C) =
      (SigVal.fin 1, initApprox C) := by
  have hloop : genLoopTop A (1/10000000) 0 (SigVal.fin 1) (initApprox A) =
      some (SigVal.fin 1, initApprox A) := by
    unfold genLoopTop
    split
    · rfl
    · rfl
  have hle : sigLe (SigVal.fin 1) (1/10000000) = false := by decide
  have hlt : sigLt (SigVal.fin 1) (1/10000000) = false := by decide
  refine ⟨?_, hloop, ?_, rfl⟩
  · show genFinish _ (genLoopTop A _ 0 (SigVal.fin 1) (initApprox A)) = none
    rw [hloop]
    show (if sigLe (SigVal.fin 1) (1/10000000) = true then some (initApprox A) else none) = none
    rw [hle]
    simp
  · by_cases hpq : p = q
    · subst hpq
      rw [shultz_inv_square]
      unfold shultz_inv_sq
      by_cases hd : detL (toL B) = 0
      · rw [if_pos hd]
      · rw [if_neg hd]
        show (if sigLt (SigVal.fin 1) (1/10000000) = true then _ else none) = none
        rw [hlt]
        simp
    · unfold shultz_inv
      exact dif_neg hpq

/-- C6: for an input with nonzero (squared) Frobenius norm, alpha is 1.8
divided by the squared Frobenius norm (so alpha · frobSq = 1.8), the initial
approximation is alpha · Aᵗ, and both algorithms start their iteration from
exactly that matrix with sigma = 1. -/
theorem c6_initial_approximation {m n p : ℕ} (A : Matrix (Fin m) (Fin n) ℚ)
    (B : Matrix (Fin p) (Fin p) ℚ) (tol : ℚ) (maxIter : ℕ)
    (hA : frobSq A ≠ 0) :
    alphaOf A * frobSq A = 1.8 ∧
    initApprox A = ((1.8 : ℚ) / frobSq A) • A.transpose ∧
    gen_inv A tol maxIter =
      genFinish tol (genLoopTop A tol maxIter (SigVal.fin 1) (initApprox A)) ∧
    shultz_inv_sq B tol maxIter =
      (if detL (toL B) = 0 then none
       else shFinish tol (shLoop B tol maxIter (SigVal.fin 1) (initApprox B))) :=
  ⟨div_mul_cancel₀ (1.8 : ℚ) hA, rfl, rfl, rfl⟩

theorem c6_witness :
    frobSq M1 ≠ 0 ∧ alphaOf M1 * frobSq M1 = 1.8 ∧
    initApprox M1 = ((1.8 : ℚ) / frobSq M1) • M1.transpose :=
  ⟨by decide, (c6_initial_approximation M1 M1 (1/2) 3 (by decide)).1,
   (c6_initial_approximation M1 M1 (1/2) 3 (by decide)).2.1⟩

/-- C7: the Schultz update is definitionally the Ben-Israel full row-rank
update at m = n, and — whenever the full-rank check passes, as it does for
every square nonsingular input — the whole row-branch loop of `gen_inv`
computes step for step the same states as the loop of `shultz_inv`. -/
theorem c7_schultz_equals_row_branch {n : ℕ} (A : Matrix (Fin n) (Fin n) ℚ) :
    (∀ X : Matrix (Fin n) (Fin n) ℚ, shultzUpdate A X = benIsraelRowUpdate A X) ∧
    (fullRankChk A = true →
      ∀ (tol : ℚ) (fuel : ℕ) (σ : SigVal) (X : Matrix (Fin n) (Fin n) ℚ),
        genLoopRow A tol fuel σ X = some (shLoop A tol fuel σ X)) := by
  constructor
  · intro X
    rfl
  · intro hfr tol fuel
    induction fuel with
    | zero =>
      intro σ X
      rfl
    | succ f ih =>
      intro σ X
      rw [genLoopRow_succ, shLoop_succ]
      by_cases hσ : sigGe σ tol = true
      · rw [if_pos hσ, if_pos hσ, if_pos hfr, ih]
        rfl
      · rw [if_neg hσ, if_neg hσ]

theorem c7_witness :
    fullRankChk M1 = true ∧
    shultzUpdate M1 (initApprox M1) = benIsraelRowUpdate M1 (initApprox M1) ∧
    genLoopRow M1 (1/2) 2 (SigVal.fin 1) (initApprox M1) =
      some (shLoop M1 (1/2) 2 (SigVal.fin 1) (initApprox M1)) :=
  ⟨by decide, (c7_schultz_equals_row_branch M1).1 (initApprox M1),
   (c7_schultz_equals_row_branch M1).2 (by decide) (1/2) 2 (SigVal.fin 1)
     (initApprox M1)⟩

/-- C8: on a non-square input the determinant computation raises
`LinAlgError`, which `shultz_inv` catches and turns into an immediate None,
before any iteration. -/
theorem c8_shultz_nonsquare {m n : ℕ} (hmn : m ≠ n) (A : Matrix (Fin m) (Fin n) ℚ)
    (tol : ℚ) (maxIter : ℕ) : shultz_inv A tol maxIter = none := by
  unfold shultz_inv
  exact dif_neg hmn

theorem c8_witness :
    (1 : ℕ) ≠ 2 ∧ shultz_inv Arow (1/10000000) 1000 = none :=
  ⟨by decide, c8_shultz_nonsquare (by decide) Arow (1/10000000) 1000⟩

/-- C9: on a square input with determinant 0, `shultz_inv` returns None
immediately, before any iteration. -/
theorem c9_shultz_singular {n : ℕ} (A : Matrix (Fin n) (Fin n) ℚ)
    (hd : detL (toL A) = 0) (tol : ℚ) (maxIter : ℕ) :
    shultz_inv A tol maxIter = none := by
  rw [shultz_inv_square]
  unfold shultz_inv_sq
  rw [if_pos hd]

theorem c9_witness :
    detL (toL Mrd) = 0 ∧ shultz_inv Mrd (1/10000000) 1000 = none :=
  ⟨by decide, c9_shultz_singular Mrd (by decide) (1/10000000) 1000⟩

/-- C10: with any tolerance strictly greater than 1, the loop condition
sigma ≥ tolerance fails at once (sigma starts at 1), so `gen_inv` performs
no iteration — the in-loop rank check is never reached — and returns the
initial approximation alpha·Aᵗ as a success for every input, rank-deficient
ones included; `shultz_inv` likewise returns alpha·Aᵗ without iterating for
every square input with nonzero determinant. -/
theorem c10_tolerance_above_one {m n p : ℕ} (A : Matrix (Fin m) (Fin n) ℚ)
    (B : Matrix (Fin p) (Fin p) ℚ) (tol : ℚ) (maxIter : ℕ)
    (htol : 1 < tol) (hB : detL (toL B) ≠ 0) :
    genLoopTop A tol maxIter (SigVal.fin 1) (initApprox A) =
      some (SigVal.fin 1, initApprox A) ∧
    gen_inv A tol maxIter = some (initApprox A) ∧
    shultz_inv B tol maxIter = some (initApprox B) := by
  have hge : sigGe (SigVal.fin 1) tol = false := by
    simp [sigGe]
    exact htol
  have hloop : genLoopTop A tol maxIter (SigVal.fin 1) (initApprox A) =
      some (SigVal.fin 1, initApprox A) := by
    unfold genLoopTop
    split
    · exact genLoopCol_stop A tol maxIter (SigVal.fin 1) (initApprox A) hge
    · exact genLoopRow_stop A tol maxIter (SigVal.fin 1) (initApprox A) hge
  refine ⟨hloop, ?_, ?_⟩
  · show genFinish _ (genLoopTop A _ maxIter (SigVal.fin 1) (initApprox A)) = _
    rw [hloop]
    simp [genFinish, sigLe, le_of_lt htol]
  · rw [shultz_inv_square]
    unfold shultz_inv_sq
    rw [if_neg hB, shLoop_stop B tol maxIter (SigVal.fin 1) (initApprox B) hge]
    simp [shFinish, sigLt, htol]

theorem c10_witness :
    (1 : ℚ) < 2 ∧ detL (toL M1) ≠ 0 ∧ elimRank (toL Mrd) < min 2 2 ∧
    gen_inv Mrd 2 7 = some (initApprox Mrd) ∧
    shultz_inv M1 2 7 = some (initApprox M1) :=
  ⟨by norm_num, by decide, by decide,
   (c10_tolerance_above_one Mrd M1 2 7 (by norm_num) (by decide)).2.1,
   (c10_tolerance_above_one Mrd M1 2 7 (by norm_num) (by decide)).2.2⟩

end MainTheorems
